import Mathlib

/-!
Verification of the japandict lookup-and-ranking engine.

This file gives a shallow embedding, in Lean, of the search core of the
japandict repository (`japandict-core/src/search.rs` and
`japandict-core/src/dictionary.rs`) and proves or refutes the frozen claims
about it.

Modelling conventions:
* Rust `&str` / `String` values are modelled as `List Char` (`Str` below).
  Rust compares strings byte-wise over UTF-8; since UTF-8 preserves
  code-point order, byte-wise comparison coincides with the code-point
  lexicographic comparison used here, and `s.len()` (UTF-8 byte count) is
  modelled by `utf8Len`.
* `str::to_lowercase` is modelled character-wise on the ASCII range (the
  only cased characters exercised by this engine: kana and kanji are
  uncased, glosses are ASCII English).
* `f32` scores are modelled as `Int`: every weight in the scorer is a small
  integer and every partial sum stays far below `2 ^ 24`, so the `f32`
  arithmetic in the source is exact and agrees with integer arithmetic;
  `partial_cmp ... unwrap_or(Equal)` on such values is total integer
  comparison (no NaN can arise).
* `u8` arithmetic (the edit-distance accumulator) is modelled as `Nat`
  arithmetic modulo `2 ^ 8` where overflow is reachable.
* Rust's stable `sort_by` is modelled by `List.insertionSort` with the
  non-strict relation induced by the comparator; both produce the unique
  stable reordering, so the outputs agree element-for-element.
-/

/-- Strings are lists of Unicode scalar values. -/
abbrev Str := List Char

/-- UTF-8 byte size of one scalar value (as produced by Rust `char::len_utf8`). -/
def charUtf8Size (c : Char) : Nat :=
  if c.toNat < 0x80 then 1
  else if c.toNat < 0x800 then 2
  else if c.toNat < 0x10000 then 3
  else 4

/-- UTF-8 byte length of a string, Rust `str::len`. -/
def utf8Len (s : Str) : Nat := (s.map charUtf8Size).sum

/-- ASCII-range character lowercasing (see the module comment). -/
def lowerChar (c : Char) : Char :=
  if 0x41 ≤ c.toNat && c.toNat ≤ 0x5A then Char.ofNat (c.toNat + 32) else c

/-- Model of Rust `str::to_lowercase`. -/
def toLowerStr (s : Str) : Str := s.map lowerChar

/-- Model of Rust `str::trim`: strip whitespace from both ends. -/
def trimStr (s : Str) : Str :=
  ((s.dropWhile Char.isWhitespace).reverse.dropWhile Char.isWhitespace).reverse

/-- `search.rs::normalize_query`: trim, then lowercase. -/
def normalize_query (s : Str) : Str := toLowerStr (trimStr s)

/-- Decoded dictionary entry (`dictionary.rs::WordEntry`). -/
structure WordEntry where
  id : Str
  kanji : List Str
  kana : List Str
  english : List Str
  pos : List Str
  is_common : Bool
deriving DecidableEq, Repr

/-- A default entry, used only to make list indexing total; every index fed
to entry lookup in the pipeline is in range, so this value is never
observed. -/
def dfltEntry : WordEntry := ⟨[], [], [], [], [], false⟩

/-- `search.rs::Features`.  The source field `prefix` is renamed
`prefix_hit` (Lean reserves the original spelling); `edit_distance` is the
`u8` field as a `Nat`. -/
structure Features where
  exact_form : Bool := false
  exact_reading : Bool := false
  prefix_hit : Bool := false
  edit_distance : Nat := 0
  has_common : Bool := false
  shorter_lemma : Bool := false
  gloss_hit : Bool := false
  first_gloss : Bool := false
  exact_english : Bool := false
  learner_friendly : Bool := false
  simple_form : Bool := false
deriving DecidableEq, Repr

/-- `search.rs::score_features`, with `f32` arithmetic replaced by the exact
`Int` arithmetic it performs on these values (module comment). -/
def score_features (f : Features) : Int :=
  let s0 : Int := 0
  let s1 := if f.exact_form then s0 + 100 else s0
  let s2 := if f.exact_reading then s1 + 95 else s1
  let s3 := if f.exact_english then s2 + 250 else s2
  let s4 := if f.first_gloss then s3 + 200 else s3
  let s5 := if f.has_common then s4 + 50 else s4
  let s6 := if f.prefix_hit then s5 + 30 else s5
  let s7 := if f.gloss_hit && !f.first_gloss then s6 + 10 else s6
  let s8 := if f.simple_form then s7 + 25 else s7
  let s9 := if f.shorter_lemma then s8 + 5 else s8
  s9 - 2 * (f.edit_distance : Int)

/-- `search.rs::QueryType`. -/
inductive QueryType where
  | kanji
  | kana
  | english
deriving DecidableEq, Repr

/-- `search.rs::detect_query_type`. -/
def detect_query_type (query : Str) : QueryType :=
  let has_kanji := query.any fun c => 0x4E00 ≤ c.toNat && c.toNat ≤ 0x9FAF
  let has_kana := query.any fun c =>
    (0x3040 ≤ c.toNat && c.toNat ≤ 0x309F) || (0x30A0 ≤ c.toNat && c.toNat ≤ 0x30FF)
  if has_kanji || has_kana then
    if has_kanji then QueryType.kanji else QueryType.kana
  else
    QueryType.english

/-- Count of index positions, up to the shorter length, holding different
characters (the counting loop of `simple_edit_distance`). -/
def countDiffs : Str → Str → Nat
  | a :: as, b :: bs => (if a = b then 0 else 1) + countDiffs as bs
  | _, _ => 0

/-- `search.rs::simple_edit_distance`.  The early exit compares UTF-8 byte
lengths; the counting works on character vectors.  The source recursion
`if a_chars.len() < b_chars.len() { return simple_edit_distance(b, a) }` is
unfolded in place: on the swapped pair the equality and byte-gap tests give
the same outcomes and the swap test is false, so the call lands in the
final counting branch.  `diff` is a `u8`: each increment and the `as u8`
cast of the length gap wrap modulo 256, hence the `% 256`. -/
def simple_edit_distance (a b : Str) : Nat :=
  if a = b then 0
  else if 2 < ((utf8Len a : Int) - (utf8Len b : Int)).natAbs then 3
  else if a.length < b.length then
    min ((countDiffs b a + (b.length - a.length)) % 256) 3
  else
    min ((countDiffs a b + (a.length - b.length)) % 256) 3

theorem countDiffs_comm : ∀ a b : Str, countDiffs a b = countDiffs b a
  | _ :: as, _ :: bs => by
    simp only [countDiffs, countDiffs_comm as bs]
    congr 1
    split <;> split <;> simp_all
  | [], [] => rfl
  | [], _ :: _ => rfl
  | _ :: _, [] => rfl

/-- Distance written from the words of claim C5, with "length" read
uniformly as character count. -/
def spec_edit_distance (a b : Str) : Nat :=
  if a = b then 0
  else if 2 < ((a.length : Int) - (b.length : Int)).natAbs then 3
  else min (countDiffs a b + ((a.length : Int) - (b.length : Int)).natAbs) 3

/-- あいう and あい: 9 and 6 UTF-8 bytes. -/
def c5a : Str := [Char.ofNat 0x3042, Char.ofNat 0x3044, Char.ofNat 0x3046]

/-- あい. -/
def c5b : Str := [Char.ofNat 0x3042, Char.ofNat 0x3044]

/-- C5 counterexample: on あいう vs あい the byte lengths differ by 3, so the
code returns the cap 3, while the claim's uniform-length reading (character
counts differ by 1, no differing positions) yields 1. -/
theorem c5_counterexample :
    simple_edit_distance c5a c5b = 3 ∧ spec_edit_distance c5a c5b = 1 := by
  exact ⟨by decide, by decide⟩

/-- C5 amended: equal strings give 0; if the UTF-8 *byte* lengths differ by
more than 2 the result is 3; otherwise the result is the number of
differing character positions plus the difference of the *character*
counts, accumulated in a wrapping byte and capped at 3.  The function is
symmetric. -/
theorem c5_edit_distance_amended (a b : Str) :
    simple_edit_distance a b =
      (if a = b then 0
       else if 2 < ((utf8Len a : Int) - (utf8Len b : Int)).natAbs then 3
       else min ((countDiffs a b +
           ((a.length : Int) - (b.length : Int)).natAbs) % 256) 3) ∧
    simple_edit_distance a b = simple_edit_distance b a := by
  constructor
  · unfold simple_edit_distance
    by_cases hab : a = b
    · simp [hab]
    rw [if_neg hab, if_neg hab]
    by_cases hgap : 2 < ((utf8Len a : Int) - (utf8Len b : Int)).natAbs
    · simp [hgap]
    rw [if_neg hgap, if_neg hgap]
    by_cases hlt : a.length < b.length
    · rw [if_pos hlt, countDiffs_comm b a]
      have hd : b.length - a.length =
          ((a.length : Int) - (b.length : Int)).natAbs := by omega
      rw [hd]
    · rw [if_neg hlt]
      have hd : a.length - b.length =
          ((a.length : Int) - (b.length : Int)).natAbs := by omega
      rw [hd]
  · unfold simple_edit_distance
    by_cases hab : a = b
    · simp [hab]
    have hba : ¬ b = a := fun h => hab h.symm
    rw [if_neg hab, if_neg hba]
    have hsym : ((utf8Len a : Int) - (utf8Len b : Int)).natAbs =
        ((utf8Len b : Int) - (utf8Len a : Int)).natAbs := by omega
    by_cases hgap : 2 < ((utf8Len a : Int) - (utf8Len b : Int)).natAbs
    · rw [if_pos hgap, if_pos (hsym ▸ hgap)]
    · rw [if_neg hgap, if_neg (fun h => hgap (hsym ▸ h))]
      rcases Nat.lt_trichotomy a.length b.length with hlt | heq | hgt
      · rw [if_pos hlt, if_neg (Nat.not_lt.mpr (Nat.le_of_lt hlt))]
      · rw [if_neg (by omega), if_neg (by omega), countDiffs_comm a b, heq]
      · rw [if_neg (Nat.not_lt.mpr (Nat.le_of_lt hgt)), if_pos hgt]

/-- The literal "adj-i". -/
def adjIStr : Str := "adj-i".toList

/-- Rust `str::contains`: the needle occurs as a contiguous substring. -/
def containsSub (hay needle : Str) : Bool :=
  (List.range (hay.length + 1)).any fun i => needle.isPrefixOf (hay.drop i)

/-- The literal suffix tested by `detect_simple_form`: the three characters
U+201E U+00C5 U+00D1 (the UTF-8 bytes of hiragana い decoded as MacRoman;
the source file carries this mojibake literally). -/
def mojibakeI : Str := [Char.ofNat 0x201E, Char.ofNat 0x00C5, Char.ofNat 0x00D1]

/-- `search.rs::detect_simple_form`. -/
def detect_simple_form (entry : WordEntry) (_query : Str) : Bool :=
  if (entry.pos.any fun p => containsSub p adjIStr) &&
      (entry.kanji.any fun k => mojibakeI.isSuffixOf k) then
    true
  else
    (entry.kanji.any fun k => k.length ≤ 2) ||
      (entry.kana.any fun k => k.length ≤ 4)

/-- Hiragana い, U+3044. -/
def hiraganaI : Char := Char.ofNat 0x3044

/-- Simple-form condition written from the words of claim C4: an "adj-i"
part-of-speech tag together with a kanji form ending in the hiragana
character い, or a short kanji/kana form. -/
def spec_simple_form (entry : WordEntry) : Bool :=
  ((entry.pos.any fun p => p == adjIStr) &&
      (entry.kanji.any fun k => [hiraganaI].isSuffixOf k)) ||
    (entry.kanji.any fun k => k.length ≤ 2) ||
    (entry.kana.any fun k => k.length ≤ 4)

/-- An i-adjective entry: pos "adj-i", kanji たかい (three characters ending
in い), one five-character kana form. -/
def c4Entry : WordEntry :=
  { id := []
    kanji := [[Char.ofNat 0x305F, Char.ofNat 0x304B, hiraganaI]]
    kana := [List.replicate 5 (Char.ofNat 0x3042)]
    english := []
    pos := [adjIStr]
    is_common := false }

/-- C4 counterexample: `c4Entry` carries the tag "adj-i" and its kanji form
ends in い, so the claim makes `simple_form` true, but the code tests for
the mojibake suffix U+201E U+00C5 U+00D1 and returns false. -/
theorem c4_counterexample :
    detect_simple_form c4Entry [] = false ∧ spec_simple_form c4Entry = true := by
  exact ⟨by decide, by decide⟩

/-- C4 amended: `simple_form` is true iff (some part-of-speech string
contains "adj-i" as a substring and some kanji form ends with the mojibake
sequence U+201E U+00C5 U+00D1 — the UTF-8 bytes of い decoded as MacRoman)
or some kanji form has ≤ 2 characters or some kana form has ≤ 4
characters. -/
theorem c4_simple_form_amended (e : WordEntry) (q : Str) :
    detect_simple_form e q = true ↔
      ((∃ p ∈ e.pos, containsSub p adjIStr = true) ∧
        ∃ k ∈ e.kanji, mojibakeI.isSuffixOf k = true) ∨
      (∃ k ∈ e.kanji, k.length ≤ 2) ∨ (∃ k ∈ e.kana, k.length ≤ 4) := by
  simp only [detect_simple_form]
  split
  · next hcond =>
    simp only [Bool.and_eq_true, List.any_eq_true] at hcond
    exact iff_of_true rfl (Or.inl hcond)
  · next hcond =>
    simp only [Bool.and_eq_true, List.any_eq_true] at hcond
    simp only [Bool.or_eq_true, List.any_eq_true, decide_eq_true_eq]
    constructor
    · intro h
      exact Or.inr h
    · rintro (h | h)
      · exact absurd h hcond
      · exact h

/-- Split at every character satisfying `p`, keeping empty pieces
(Rust `str::split`). -/
def splitOnPred (p : Char → Bool) : Str → List Str
  | [] => [[]]
  | c :: cs =>
    match splitOnPred p cs with
    | h :: t => if p c then [] :: h :: t else (c :: h) :: t
    | [] => if p c then [[], []] else [[c]]

/-- Rust `str::split_whitespace`: maximal non-whitespace runs, no empty
tokens. -/
def splitWhitespace (s : Str) : List Str :=
  (splitOnPred Char.isWhitespace s).filter fun w => w ≠ []

/-- `word.trim_matches(|c: char| !c.is_alphabetic())`: strip non-letters
from both ends (alphabetic modelled on the ASCII range, like lowercasing).
-/
def trimNonAlpha (w : Str) : Str :=
  ((w.dropWhile fun c => !c.isAlpha).reverse.dropWhile fun c => !c.isAlpha).reverse

/-- The gloss-related feature bits mutated by the English branch of
`evaluate_entry`. -/
structure GlossState where
  gloss_hit : Bool := false
  first_gloss : Bool := false
  exact_english : Bool := false
deriving DecidableEq, Repr

/-- One iteration of the inner meaning loop of `evaluate_entry`'s English
branch: returns the updated state and whether the loop `break`s. -/
def scanMeaning (nq : Str) (firstM : Bool) (st : GlossState) (meaning : Str) :
    GlossState × Bool :=
  let clean := trimStr meaning
  if clean = nq then
    ({ st with gloss_hit := true, exact_english := true,
               first_gloss := st.first_gloss || firstM }, true)
  else if clean = "to ".toList ++ nq then
    ({ st with gloss_hit := true, exact_english := true,
               first_gloss := st.first_gloss || firstM }, true)
  else
    let words := splitWhitespace clean
    let firstWordHit :=
      match words.head? with
      | some fw => trimNonAlpha fw == nq
      | none => false
    if firstWordHit then
      ({ st with gloss_hit := true,
                 exact_english := st.exact_english || words.length == 1,
                 first_gloss := st.first_gloss || firstM }, true)
    else if 2 ≤ words.length && words.headD [] == "to".toList &&
        trimNonAlpha (words.getD 1 []) == nq then
      ({ st with gloss_hit := true,
                 exact_english := st.exact_english || words.length == 2,
                 first_gloss := st.first_gloss || firstM }, true)
    else if words.any fun w => trimNonAlpha w == nq then
      ({ st with gloss_hit := true }, false)
    else
      (st, false)

/-- The inner `for (i, meaning)` loop (with its `break`). -/
def scanMeanings (nq : Str) (veryFirst : Bool) :
    List (Nat × Str) → GlossState → GlossState
  | [], st => st
  | (i, m) :: rest, st =>
    match scanMeaning nq (veryFirst && i == 0) st m with
    | (st', true) => st'
    | (st', false) => scanMeanings nq veryFirst rest st'

/-- The outer loop over glosses: lowercase, split on ';', scan meanings,
clear the very-first flag, stop once `first_gloss` is set. -/
def scanGlosses (nq : Str) : List Str → Bool → GlossState → GlossState
  | [], _, st => st
  | g :: rest, veryFirst, st =>
    let meanings := splitOnPred (fun c => c == ';') (toLowerStr g)
    let st' := scanMeanings nq veryFirst meanings.enum st
    if st'.first_gloss then st' else scanGlosses nq rest false st'

/-- Kanji-form loop of `evaluate_entry`: first exact lowercased match stops
the loop; non-matching forms may set the prefix bit first. -/
def kanjiScan (nq : Str) : List Str → Bool → Bool × Bool
  | [], px => (false, px)
  | k :: rest, px =>
    if toLowerStr k = nq then (true, px)
    else kanjiScan nq rest (px || nq.isPrefixOf (toLowerStr k))

/-- Kana-form loop of `evaluate_entry` for Kana queries: exact match stops
the loop; otherwise the prefix bit and the first edit distance ≤ 2 are
recorded (the distance only while the stored distance is still 0). -/
def kanaScan (nq : Str) : List Str → Bool → Nat → Bool × Bool × Nat
  | [], px, ed => (false, px, ed)
  | k :: rest, px, ed =>
    let kl := toLowerStr k
    if kl = nq then (true, px, ed)
    else
      let px' := px || nq.isPrefixOf kl
      let d := simple_edit_distance kl nq
      let ed' := if d ≤ 2 ∧ ed = 0 then d else ed
      kanaScan nq rest px' ed'

/-- The match-feature part of `evaluate_entry` (everything before the
no-match early return). -/
def rawFeatures (entry : WordEntry) (query : Str) (query_type : QueryType) :
    Features :=
  let nq := normalize_query query
  match query_type with
  | QueryType.kanji =>
    let (ef, px) := kanjiScan nq entry.kanji false
    let er := entry.kana.any fun k => toLowerStr k == nq
    { exact_form := ef, prefix_hit := px, exact_reading := er }
  | QueryType.kana =>
    let (er, px, ed) := kanaScan nq entry.kana false 0
    { exact_reading := er, prefix_hit := px, edit_distance := ed }
  | QueryType.english =>
    let g := scanGlosses nq entry.english true {}
    { gloss_hit := g.gloss_hit, first_gloss := g.first_gloss,
      exact_english := g.exact_english }

/-- `search.rs::SearchResult` (score as exact `Int`, module comment). -/
structure SearchResult where
  entry : WordEntry
  score : Int
  features : Features
deriving DecidableEq, Repr

/-- The quality features added after a match is found. -/
def finalFeatures (entry : WordEntry) (query : Str) (query_type : QueryType) :
    Features :=
  { rawFeatures entry query query_type with
    has_common := entry.is_common,
    shorter_lemma := (entry.kanji.any fun k => k.length ≤ 2) ||
      (entry.kana.any fun k => k.length ≤ 3),
    simple_form := detect_simple_form entry query }

/-- `search.rs::evaluate_entry`. -/
def evaluate_entry (entry : WordEntry) (query : Str) (query_type : QueryType) :
    Option SearchResult :=
  let f1 := rawFeatures entry query query_type
  if !f1.exact_form && !f1.exact_reading && !f1.prefix_hit && !f1.gloss_hit &&
      f1.edit_distance == 0 then
    none
  else
    let f2 := finalFeatures entry query query_type
    some { entry := entry, score := score_features f2, features := f2 }

theorem evaluate_entry_features {e : WordEntry} {q : Str} {qt : QueryType}
    {r : SearchResult} (h : evaluate_entry e q qt = some r) :
    r.features = finalFeatures e q qt ∧ r.entry = e := by
  simp only [evaluate_entry] at h
  split at h
  · exact absurd h (by simp)
  · injection h with h2
    rw [← h2]
    exact ⟨rfl, rfl⟩

/-- Indicator used to state the weight-table claim. -/
def bInt (b : Bool) : Int := if b then 1 else 0

/-- C1: the score is exactly the stated linear combination of the features. -/
theorem c1_score_is_weight_table (f : Features) :
    score_features f =
      250 * bInt f.exact_english + 200 * bInt f.first_gloss +
      100 * bInt f.exact_form + 95 * bInt f.exact_reading +
      50 * bInt f.has_common + 30 * bInt f.prefix_hit +
      25 * bInt f.simple_form + 10 * bInt (f.gloss_hit && !f.first_gloss) +
      5 * bInt f.shorter_lemma - 2 * (f.edit_distance : Int) := by
  obtain ⟨ef, er, ph, ed, hc, sl, gh, fg, ee, lf, sf⟩ := f
  simp only [score_features, bInt]
  cases ef <;> cases er <;> cases ph <;> cases hc <;> cases sl <;>
    cases gh <;> cases fg <;> cases ee <;> cases sf <;> simp

/-- Classifier written from the words of claim C7: the kanji test is
membership in the full CJK Unified Ideographs block U+4E00..U+9FFF.  Kept
separate from `detect_query_type`, which is translated from the source and
stops its kanji range at U+9FAF. -/
def spec_detect_query_type (query : Str) : QueryType :=
  let has_kanji := query.any fun c => 0x4E00 ≤ c.toNat && c.toNat ≤ 0x9FFF
  let has_kana := query.any fun c =>
    (0x3040 ≤ c.toNat && c.toNat ≤ 0x309F) || (0x30A0 ≤ c.toNat && c.toNat ≤ 0x30FF)
  if has_kanji then QueryType.kanji
  else if has_kana then QueryType.kana
  else QueryType.english

/-- A query containing U+9FB0 (inside the CJK Unified Ideographs block but
above the source's U+9FAF cut-off) together with hiragana あ. -/
def c7Query : Str := [Char.ofNat 0x9FB0, Char.ofNat 0x3042]

/-- C7 counterexample: on `c7Query` the code classifies Kana although the
claim ("any character in the CJK ideograph block ⇒ Kanji") demands Kanji. -/
theorem c7_counterexample :
    detect_query_type c7Query = QueryType.kana ∧
      spec_detect_query_type c7Query = QueryType.kanji ∧
      detect_query_type c7Query ≠ spec_detect_query_type c7Query := by
  refine ⟨by decide, by decide, by decide⟩

/-- C7 amended: with the kanji range read as the source's U+4E00..U+9FAF
(a strict subset of the CJK Unified Ideographs block), the classifier
returns Kanji iff some character is in that range, otherwise Kana iff some
character is hiragana or katakana, otherwise English; Kanji takes
precedence over Kana. -/
theorem c7_classifier_amended (query : Str) :
    (detect_query_type query = QueryType.kanji ↔
      ∃ c ∈ query, 0x4E00 ≤ c.toNat ∧ c.toNat ≤ 0x9FAF) ∧
    (detect_query_type query = QueryType.kana ↔
      (¬ ∃ c ∈ query, 0x4E00 ≤ c.toNat ∧ c.toNat ≤ 0x9FAF) ∧
      ∃ c ∈ query, (0x3040 ≤ c.toNat ∧ c.toNat ≤ 0x309F) ∨
        (0x30A0 ≤ c.toNat ∧ c.toNat ≤ 0x30FF)) ∧
    (detect_query_type query = QueryType.english ↔
      (¬ ∃ c ∈ query, 0x4E00 ≤ c.toNat ∧ c.toNat ≤ 0x9FAF) ∧
      ¬ ∃ c ∈ query, (0x3040 ≤ c.toNat ∧ c.toNat ≤ 0x309F) ∨
        (0x30A0 ≤ c.toNat ∧ c.toNat ≤ 0x30FF)) := by
  simp only [detect_query_type, List.any_eq_true, Bool.or_eq_true,
    Bool.and_eq_true, decide_eq_true_eq]
  by_cases hkj : ∃ c ∈ query, 0x4E00 ≤ c.toNat ∧ c.toNat ≤ 0x9FAF <;>
    by_cases hkn : ∃ c ∈ query, (0x3040 ≤ c.toNat ∧ c.toNat ≤ 0x309F) ∨
      (0x30A0 ≤ c.toNat ∧ c.toNat ≤ 0x30FF)
  · rw [if_pos (Or.inl hkj), if_pos hkj]; simp [hkj, hkn]
  · rw [if_pos (Or.inl hkj), if_pos hkj]; simp [hkj, hkn]
  · rw [if_pos (Or.inr hkn), if_neg hkj]; simp [hkj, hkn]
  · rw [if_neg (not_or.mpr ⟨hkj, hkn⟩)]; simp [hkj, hkn]

/-- The value `evaluate_entry` actually records for Kana queries: the first
bounded edit distance that is 1 or 2, scanning the (lowercased) kana forms
in order; 0 if no form comes that close. -/
def firstEligibleDist (nq : Str) : List Str → Nat
  | [] => 0
  | k :: rest =>
    let d := simple_edit_distance (toLowerStr k) nq
    if d ≤ 2 ∧ d ≠ 0 then d else firstEligibleDist nq rest

/-- The value claim C3 describes: the minimum over all kana forms of the
bounded edit distance to the normalized query, counting only distances
≤ 2, and 0 when no form is within distance 2. -/
def spec_min_edit_distance (nq : Str) (kanas : List Str) : Nat :=
  match (kanas.map fun k => simple_edit_distance k nq).filter
      (fun d => d ≤ 2) with
  | [] => 0
  | d :: ds => ds.foldl min d

theorem kanaScan_ed_frozen (nq : Str) :
    ∀ (kanas : List Str) (px : Bool) (ed : Nat), ed ≠ 0 →
      (kanaScan nq kanas px ed).2.2 = ed
  | [], _, _, _ => rfl
  | k :: rest, px, ed, hed => by
    simp only [kanaScan]
    split
    · rfl
    · have hcond : ¬ (simple_edit_distance (toLowerStr k) nq ≤ 2 ∧ ed = 0) :=
        fun hc => hed hc.2
      rw [if_neg hcond]
      exact kanaScan_ed_frozen nq rest _ ed hed

theorem kanaScan_ed_first (nq : Str) :
    ∀ (kanas : List Str) (px : Bool),
      (∀ k ∈ kanas, toLowerStr k ≠ nq) →
      (kanaScan nq kanas px 0).2.2 = firstEligibleDist nq kanas
  | [], _, _ => rfl
  | k :: rest, px, hne => by
    simp only [kanaScan, firstEligibleDist]
    rw [if_neg (hne k (List.mem_cons_self k rest))]
    by_cases helig : simple_edit_distance (toLowerStr k) nq ≤ 2 ∧
        simple_edit_distance (toLowerStr k) nq ≠ 0
    · rw [if_pos helig, if_pos ⟨helig.1, trivial⟩]
      exact kanaScan_ed_frozen nq rest _ _ helig.2
    · rw [if_neg helig]
      have hz : (if simple_edit_distance (toLowerStr k) nq ≤ 2 ∧ True
          then simple_edit_distance (toLowerStr k) nq else 0) = 0 := by
        split
        · next hc =>
          by_cases h0 : simple_edit_distance (toLowerStr k) nq = 0
          · exact h0
          · exact absurd ⟨hc.1, h0⟩ helig
        · rfl
      rw [hz]
      exact kanaScan_ed_first nq rest _ fun k hk => hne k (List.mem_cons_of_mem _ hk)

/-- Kana query かき. -/
def c3Query : Str := [Char.ofNat 0x304B, Char.ofNat 0x304D]

/-- Entry whose kana forms are くけ (distance 2 from かき) then かく
(distance 1): the code records 2, the minimum is 1. -/
def c3Entry : WordEntry :=
  { id := []
    kanji := []
    kana := [[Char.ofNat 0x304F, Char.ofNat 0x3051],
             [Char.ofNat 0x304B, Char.ofNat 0x304F]]
    english := []
    pos := []
    is_common := false }

/-- C3 counterexample: no kana form of `c3Entry` equals the normalized
query かき, the evaluator records edit distance 2 (the first eligible hit),
but the minimum bounded distance over the kana forms is 1. -/
theorem c3_counterexample :
    (c3Entry.kana.all fun k => !(toLowerStr k == normalize_query c3Query)) = true ∧
    (evaluate_entry c3Entry c3Query QueryType.kana).map
      (fun r => r.features.edit_distance) = some 2 ∧
    spec_min_edit_distance (normalize_query c3Query) c3Entry.kana = 1 := by
  exact ⟨by decide, by decide, by decide⟩

/-- C3 amended: for a Kana query and an entry none of whose kana forms
lowercases to the normalized query, the recorded `edit_distance` is the
*first* bounded edit distance in {1, 2} met while scanning the kana forms
in order (not the minimum), and 0 when no form is within bounded
distance 2. -/
theorem c3_edit_distance_amended (e : WordEntry) (q : Str)
    (hne : ∀ k ∈ e.kana, toLowerStr k ≠ normalize_query q)
    (r : SearchResult) (h : evaluate_entry e q QueryType.kana = some r) :
    r.features.edit_distance = firstEligibleDist (normalize_query q) e.kana := by
  rw [(evaluate_entry_features h).1]
  have h2 := kanaScan_ed_first (normalize_query q) e.kana false hne
  show (finalFeatures e q QueryType.kana).edit_distance = _
  rcases hks : kanaScan (normalize_query q) e.kana false 0 with ⟨er, px, ed⟩
  rw [hks] at h2
  simp only [finalFeatures, rawFeatures, hks]
  exact h2

/-- C3 amended witness at a concrete input: entry with single kana form
くけ at distance 2 from かき. -/
def c3wEntry : WordEntry :=
  { id := []
    kanji := []
    kana := [[Char.ofNat 0x304F, Char.ofNat 0x3051]]
    english := []
    pos := []
    is_common := false }

theorem c3_amended_witness :
    (evaluate_entry c3wEntry c3Query QueryType.kana).map
      (fun r => r.features.edit_distance) =
      some (firstEligibleDist (normalize_query c3Query) c3wEntry.kana) := by
  cases hev : evaluate_entry c3wEntry c3Query QueryType.kana with
  | none => exact absurd hev (by decide)
  | some r =>
    simp only [Option.map_some']
    rw [c3_edit_distance_amended c3wEntry c3Query (by decide) r hev]

/-- C10: whenever the evaluator produces a result, the shorter-lemma
feature implies the simple-form feature: a kanji form of ≤ 2 characters
satisfies both, and a kana form of ≤ 3 characters also has ≤ 4. -/
theorem c10_shorter_implies_simple (e : WordEntry) (q : Str) (qt : QueryType)
    (r : SearchResult) (h : evaluate_entry e q qt = some r)
    (hsl : r.features.shorter_lemma = true) : r.features.simple_form = true := by
  rw [(evaluate_entry_features h).1] at hsl ⊢
  have hsl2 : ((e.kanji.any fun k => k.length ≤ 2) ||
      (e.kana.any fun k => k.length ≤ 3)) = true := hsl
  show detect_simple_form e q = true
  unfold detect_simple_form
  split
  · rfl
  · simp only [Bool.or_eq_true, List.any_eq_true, decide_eq_true_eq] at hsl2 ⊢
    rcases hsl2 with ⟨k, hk, hlen⟩ | ⟨k, hk, hlen⟩
    · exact Or.inl ⟨k, hk, hlen⟩
    · exact Or.inr ⟨k, hk, by omega⟩

/-- Entry with a single one-character kana form あ. -/
def c10Entry : WordEntry :=
  { id := []
    kanji := []
    kana := [[Char.ofNat 0x3042]]
    english := []
    pos := []
    is_common := false }

/-- Query あ. -/
def c10Query : Str := [Char.ofNat 0x3042]

theorem c10_witness :
    (evaluate_entry c10Entry c10Query QueryType.kana).map
      (fun r => r.features.simple_form) = some true := by
  cases hev : evaluate_entry c10Entry c10Query QueryType.kana with
  | none => exact absurd hev (by decide)
  | some r =>
    simp only [Option.map_some']
    have hsl : r.features.shorter_lemma = true := by
      have h2 : (evaluate_entry c10Entry c10Query QueryType.kana).map
          (fun r => r.features.shorter_lemma) = some true := by decide
      rw [hev] at h2
      simpa using h2
    rw [c10_shorter_implies_simple c10Entry c10Query QueryType.kana r hev hsl]

/-- Inverted index: association list in insertion order.  The source uses a
`HashMap`; its arbitrary iteration order only feeds candidate sets that are
subsequently sorted and deduplicated, so every property proved below is
independent of the order chosen here. -/
abbrev IndexMap := List (Str × List Nat)

/-- `index.entry(k).or_default().push(i)`. -/
def mapPush (m : IndexMap) (k : Str) (i : Nat) : IndexMap :=
  match m with
  | [] => [(k, [i])]
  | (k', v) :: rest =>
    if k' = k then (k', v ++ [i]) :: rest else (k', v) :: mapPush rest k i

/-- The id sequence stored under a key (`[]` when the key is absent). -/
def mapGet (m : IndexMap) (k : Str) : List Nat :=
  match m with
  | [] => []
  | (k', v) :: rest => if k' = k then v else mapGet rest k

theorem mapGet_mapPush (m : IndexMap) (k k' : Str) (i : Nat) :
    mapGet (mapPush m k i) k' =
      if k' = k then mapGet m k ++ [i] else mapGet m k' := by
  induction m with
  | nil =>
    by_cases h : k' = k
    · subst h; simp [mapPush, mapGet]
    · have h2 : ¬ k = k' := fun hk => h hk.symm
      simp [mapPush, mapGet, h, h2]
  | cons kv rest ih =>
    obtain ⟨k0, v⟩ := kv
    by_cases h0 : k0 = k
    · subst h0
      by_cases h : k' = k0
      · subst h; simp [mapPush, mapGet]
      · have h2 : ¬ k0 = k' := fun hk => h hk.symm
        simp [mapPush, mapGet, h, h2]
    · by_cases h : k' = k
      · subst h
        have h2 : ¬ k0 = k' := h0
        simp [mapPush, mapGet, h0, h2, ih]
      · by_cases h3 : k0 = k'
        · subst h3; simp [mapPush, mapGet, h0, ih, h]
        · simp [mapPush, mapGet, h0, h3, ih, h]

theorem mapGet_pushForms (i : Nat) :
    ∀ (forms : List Str) (m : IndexMap) (k : Str),
      mapGet (forms.foldl (fun m f => mapPush m f i) m) k
        = mapGet m k ++ List.replicate (forms.count k) i
  | [], m, k => by simp
  | f :: fs, m, k => by
    simp only [List.foldl_cons]
    rw [mapGet_pushForms i fs (mapPush m f i) k, mapGet_mapPush]
    by_cases h : k = f
    · subst h
      simp [List.count_cons, List.replicate_succ]
    · have h2 : ¬ (f == k) = true := by simpa using fun hk => h hk.symm
      simp [List.count_cons, h, h2]

/-- Shared shape of `build_kanji_index` and `build_kana_index`: for every
entry index in storage order, push the index under each form of the entry.
-/
def build_form_index (proj : WordEntry → List Str) (dict : List WordEntry) :
    IndexMap :=
  (List.range dict.length).foldl
    (fun m idx =>
      (proj (dict.getD idx dfltEntry)).foldl (fun m s => mapPush m s idx) m) []

/-- `search.rs::build_kanji_index` (no sort/dedup pass, unlike the English
index). -/
def build_kanji_index (dict : List WordEntry) : IndexMap :=
  build_form_index WordEntry.kanji dict

/-- `search.rs::build_kana_index` (no sort/dedup pass). -/
def build_kana_index (dict : List WordEntry) : IndexMap :=
  build_form_index WordEntry.kana dict

theorem mapGet_foldIdx (proj : WordEntry → List Str) (dict : List WordEntry)
    (k : Str) :
    ∀ (idxs : List Nat) (m : IndexMap),
      mapGet (idxs.foldl
        (fun m idx =>
          (proj (dict.getD idx dfltEntry)).foldl (fun m s => mapPush m s idx) m) m) k
        = mapGet m k ++ idxs.flatMap
            (fun idx => List.replicate ((proj (dict.getD idx dfltEntry)).count k) idx)
  | [], m => by simp
  | i :: is, m => by
    simp only [List.foldl_cons, List.flatMap_cons]
    rw [mapGet_foldIdx proj dict k is _, mapGet_pushForms]
    simp [List.append_assoc]

theorem mapGet_build_form_index (proj : WordEntry → List Str)
    (dict : List WordEntry) (k : Str) :
    mapGet (build_form_index proj dict) k
      = (List.range dict.length).flatMap
          (fun idx => List.replicate ((proj (dict.getD idx dfltEntry)).count k) idx) := by
  rw [build_form_index, mapGet_foldIdx]
  simp [mapGet]

theorem pairwise_flatMap {α β : Type} (R : β → β → Prop) (f : α → List β) :
    ∀ l : List α, (∀ a ∈ l, (f a).Pairwise R) →
      (l.Pairwise fun a b => ∀ x ∈ f a, ∀ y ∈ f b, R x y) →
      (l.flatMap f).Pairwise R
  | [], _, _ => List.Pairwise.nil
  | a :: l, hchunk, hcross => by
    simp only [List.flatMap_cons]
    rw [List.pairwise_append]
    obtain ⟨hhead, htail⟩ := List.pairwise_cons.mp hcross
    refine ⟨hchunk a (List.mem_cons_self a l),
      pairwise_flatMap R f l (fun b hb => hchunk b (List.mem_cons_of_mem _ hb)) htail,
      ?_⟩
    intro x hx y hy
    obtain ⟨b, hb, hyb⟩ := List.mem_flatMap.mp hy
    exact hhead b hb x hx y hyb

theorem build_form_index_sorted (proj : WordEntry → List Str)
    (dict : List WordEntry) (k : Str) :
    (mapGet (build_form_index proj dict) k).Pairwise (· ≤ ·) := by
  rw [mapGet_build_form_index]
  apply pairwise_flatMap
  · intro i _
    exact (List.pairwise_replicate).mpr (Or.inr (Nat.le_refl i))
  · refine (List.sorted_lt_range dict.length).imp ?_
    intro i j hij x hx y hy
    rw [List.eq_of_mem_replicate hx, List.eq_of_mem_replicate hy]
    exact Nat.le_of_lt hij

theorem count_le_one_of_nodup : ∀ {l : List Str}, l.Nodup → ∀ k, l.count k ≤ 1
  | [], _, _ => by simp
  | f :: fs, h, k => by
    rw [List.count_cons]
    obtain ⟨hf, hfs⟩ := List.nodup_cons.mp h
    by_cases hfk : (f == k) = true
    · have heq : f = k := by simpa using hfk
      subst heq
      have hz : fs.count f = 0 := List.count_eq_zero.mpr hf
      simp [hz, hfk]
    · simp only [hfk, if_false, Nat.add_zero]
      exact count_le_one_of_nodup hfs k

theorem build_form_index_nodup (proj : WordEntry → List Str)
    (dict : List WordEntry) (k : Str)
    (hnd : ∀ e ∈ dict, (proj e).Nodup) :
    (mapGet (build_form_index proj dict) k).Nodup := by
  rw [mapGet_build_form_index]
  have hstrict : ((List.range dict.length).flatMap
      (fun idx => List.replicate ((proj (dict.getD idx dfltEntry)).count k) idx)).Pairwise
        (· < ·) := by
    apply pairwise_flatMap
    · intro i hi
      rw [List.mem_range] at hi
      have hmem : dict.getD i dfltEntry ∈ dict := by
        rw [List.getD_eq_getElem dict dfltEntry hi]
        exact List.getElem_mem hi
      have hle : (proj (dict.getD i dfltEntry)).count k ≤ 1 :=
        count_le_one_of_nodup (hnd _ hmem) k
      exact (List.pairwise_replicate).mpr (Or.inl hle)
    · refine (List.sorted_lt_range dict.length).imp ?_
      intro i j hij x hx y hy
      rw [List.eq_of_mem_replicate hx, List.eq_of_mem_replicate hy]
      exact hij
  exact hstrict.imp Nat.ne_of_lt

/-- `Vec::dedup`: drop duplicates that are adjacent. -/
def dedupAdj : List Nat → List Nat
  | [] => []
  | [x] => [x]
  | x :: y :: rest =>
    if x = y then dedupAdj (y :: rest) else x :: dedupAdj (y :: rest)

theorem dedupAdj_mem_subset : ∀ {l : List Nat} {z : Nat}, z ∈ dedupAdj l → z ∈ l
  | [], _, h => by simp [dedupAdj] at h
  | [x], _, h => by simpa [dedupAdj] using h
  | x :: y :: rest, z, h => by
    rw [dedupAdj] at h
    by_cases hc : x = y
    · rw [if_pos hc] at h
      exact List.mem_cons_of_mem _ (dedupAdj_mem_subset h)
    · rw [if_neg hc] at h
      rcases List.mem_cons.mp h with hz | hz
      · exact hz ▸ List.mem_cons_self x _
      · exact List.mem_cons_of_mem _ (dedupAdj_mem_subset hz)

theorem dedupAdj_strict : ∀ l : List Nat,
    l.Pairwise (· ≤ ·) → (dedupAdj l).Pairwise (· < ·)
  | [], _ => List.Pairwise.nil
  | [x], _ => by simp [dedupAdj]
  | x :: y :: rest, h => by
    rw [dedupAdj]
    obtain ⟨hx, htail⟩ := List.pairwise_cons.mp h
    by_cases hc : x = y
    · rw [if_pos hc]
      exact dedupAdj_strict (y :: rest) htail
    · rw [if_neg hc]
      refine List.pairwise_cons.mpr ⟨?_, dedupAdj_strict (y :: rest) htail⟩
      intro z hz
      have hxy : x < y :=
        Nat.lt_of_le_of_ne (hx y (List.mem_cons_self y rest)) hc
      rcases List.mem_cons.mp (dedupAdj_mem_subset hz) with hzy | hzr
      · exact hzy ▸ hxy
      · exact Nat.lt_of_lt_of_le hxy (List.rel_of_sorted_cons htail z hzr)

/-- `vec.sort_unstable(); vec.dedup();` on a vector of ids. -/
def sortDedup (v : List Nat) : List Nat :=
  dedupAdj (List.insertionSort (· ≤ ·) v)

theorem sortDedup_strict (v : List Nat) : (sortDedup v).Pairwise (· < ·) :=
  dedupAdj_strict _ (List.sorted_insertionSort (· ≤ ·) v)

/-- The English index before its final sort/dedup pass
(`search.rs::build_english_index`, population loop).  For every entry and
every gloss: key the whole normalized gloss, every whitespace token of
byte length > 1, every trimmed non-empty semicolon clause, and the first
token (byte length > 1) of each such clause. -/
def build_english_raw (dict : List WordEntry) : IndexMap :=
  (List.range dict.length).foldl
    (fun m idx =>
      ((dict.getD idx dfltEntry).english).foldl
        (fun m english =>
          let normalized := normalize_query english
          let m := mapPush m normalized idx
          let m := (splitWhitespace normalized).foldl
            (fun m w => if 1 < utf8Len w then mapPush m w idx else m) m
          let meanings := splitOnPred (fun c => c == ';') normalized
          meanings.foldl
            (fun m mn =>
              let mn := trimStr mn
              if mn ≠ [] then
                let m := mapPush m mn idx
                match (splitWhitespace mn).head? with
                | some fw => if 1 < utf8Len fw then mapPush m fw idx else m
                | none => m
              else m) m) m) []

/-- `search.rs::build_english_index`: populate, then sort and deduplicate
every value vector. -/
def build_english_index (dict : List WordEntry) : IndexMap :=
  (build_english_raw dict).map fun kv => (kv.1, sortDedup kv.2)

theorem mapGet_valueMap (f : List Nat → List Nat) (hf : f [] = []) :
    ∀ (m : IndexMap) (k : Str),
      mapGet (m.map fun kv => (kv.1, f kv.2)) k = f (mapGet m k)
  | [], k => by simp [mapGet, hf]
  | (k0, v) :: rest, k => by
    by_cases h : k0 = k
    · simp [mapGet, h]
    · simp only [List.map_cons, mapGet, if_neg h]
      exact mapGet_valueMap f hf rest k

/-- Entry listing the same kanji form 日 twice. -/
def c6Key : Str := [Char.ofNat 0x65E5]

def c6Dict : List WordEntry :=
  [{ id := []
     kanji := [c6Key, c6Key]
     kana := []
     english := []
     pos := []
     is_common := true }]

/-- C6 counterexample: the kanji index is populated without any dedup pass,
so an entry that lists the same kanji form twice stores its id twice under
that key — the value sequence [0, 0] is not duplicate-free. -/
theorem c6_counterexample :
    mapGet (build_kanji_index c6Dict) c6Key = [0, 0] ∧
      ¬ ([0, 0] : List Nat).Nodup := by
  exact ⟨by decide, by decide⟩

/-- C6 amended: gloss-index value sequences are strictly ascending (sorted
and duplicate-free).  Kanji- and kana-index value sequences are ascending
(non-decreasing) but receive no dedup pass: they are duplicate-free only
under the extra assumption that no entry lists the same kanji (resp. kana)
form twice. -/
theorem c6_index_invariants_amended (dict : List WordEntry) (k : Str) :
    (mapGet (build_english_index dict) k).Pairwise (· < ·) ∧
    (mapGet (build_kanji_index dict) k).Pairwise (· ≤ ·) ∧
    (mapGet (build_kana_index dict) k).Pairwise (· ≤ ·) ∧
    ((∀ e ∈ dict, e.kanji.Nodup) → (mapGet (build_kanji_index dict) k).Nodup) ∧
    ((∀ e ∈ dict, e.kana.Nodup) → (mapGet (build_kana_index dict) k).Nodup) := by
  refine ⟨?_, build_form_index_sorted _ dict k, build_form_index_sorted _ dict k,
    fun h => build_form_index_nodup _ dict k h,
    fun h => build_form_index_nodup _ dict k h⟩
  rw [build_english_index, mapGet_valueMap sortDedup rfl]
  exact sortDedup_strict _

/-- C6 amended witness: concrete one-entry dictionary, concrete key. -/
def c6wDict : List WordEntry :=
  [{ id := []
     kanji := [c6Key]
     kana := []
     english := []
     pos := []
     is_common := true }]

theorem c6_amended_witness :
    (∀ e ∈ c6wDict, e.kanji.Nodup) ∧
      (mapGet (build_kanji_index c6wDict) c6Key).Nodup := by
  refine ⟨by decide, (c6_index_invariants_amended c6wDict c6Key).2.2.2.1 (by decide)⟩

/-- Iterate an index and union the id lists of all keys matching `p`
(the `for (key, indices) in index` loops of `find_indexed_entries`). -/
def collectMatches (m : IndexMap) (p : Str → Bool) : List Nat :=
  m.flatMap fun kv => if p kv.1 then kv.2 else []

/-- `search.rs::find_indexed_entries`, parameterized over the three built
indices: English, exact key then (if empty) key-set scan on strict prefix
matches; Kanji/Kana, key-set scan on exact-or-prefix matches; then
`sort_unstable`, `dedup`, `truncate(1000)`. -/
def find_indexed_entries (eng kj kn : IndexMap) (query : Str)
    (query_type : QueryType) : List Nat :=
  let nq := normalize_query query
  let candidates :=
    match query_type with
    | QueryType.english =>
      let exact := mapGet eng nq
      if exact.isEmpty then
        collectMatches eng fun w => nq.isPrefixOf w && !(w == nq)
      else exact
    | QueryType.kanji => collectMatches kj fun k => k == nq || nq.isPrefixOf k
    | QueryType.kana => collectMatches kn fun k => k == nq || nq.isPrefixOf k
  (dedupAdj (List.insertionSort (· ≤ ·) candidates)).take 1000

/-- The fallback full-scan loop of `search_dictionary`: evaluate entries in
storage order, stop after the 200th accumulated match. -/
def fallbackGo (dict : List WordEntry) (query : Str) (query_type : QueryType) :
    List Nat → List SearchResult → List SearchResult
  | [], acc => acc
  | i :: rest, acc =>
    match evaluate_entry (dict.getD i dfltEntry) query query_type with
    | none => fallbackGo dict query query_type rest acc
    | some r =>
      let acc' := acc ++ [r]
      if 200 ≤ acc'.length then acc'
      else fallbackGo dict query query_type rest acc'

/-- Fallback scan over the first `min(WORD_COUNT, 5000)` entries. -/
def fallbackScan (dict : List WordEntry) (query : Str)
    (query_type : QueryType) : List SearchResult :=
  fallbackGo dict query query_type (List.range (min dict.length 5000)) []

/-- The comparator chain of `search_dictionary`'s `sort_by`, one component
per early return. -/
def cmpNat (x y : Nat) : Ordering :=
  if x < y then Ordering.lt else if y < x then Ordering.gt else Ordering.eq

def cmpInt (x y : Int) : Ordering :=
  if x < y then Ordering.lt else if y < x then Ordering.gt else Ordering.eq

def cmpBool : Bool → Bool → Ordering
  | false, true => Ordering.lt
  | true, false => Ordering.gt
  | _, _ => Ordering.eq

def cmpChar (x y : Char) : Ordering := cmpNat x.toNat y.toNat

/-- Rust `str::cmp` (byte-wise over UTF-8 = code-point lexicographic). -/
def strCmp : Str → Str → Ordering
  | [], [] => Ordering.eq
  | [], _ :: _ => Ordering.lt
  | _ :: _, [] => Ordering.gt
  | a :: as, b :: bs => (cmpChar a b).then (strCmp as bs)

/-- Tie-breaker 2 of the ranking: minimum UTF-8 byte length over all kanji
and kana forms, sentinel 100 when the entry has none. -/
def minFormLen (e : WordEntry) : Nat :=
  match (e.kanji ++ e.kana).map utf8Len with
  | [] => 100
  | x :: xs => xs.foldl Nat.min x

/-- Tie-breaker 3 key: first kanji form, else first kana form, else "". -/
def sortKeyStr (e : WordEntry) : Str :=
  match e.kanji.head? with
  | some k => k
  | none =>
    match e.kana.head? with
    | some k => k
    | none => []

/-- The `sort_by` comparator of `search_dictionary`: score descending, then
common-first, then minimum form byte length ascending, then first-form
lexicographic.  (`partial_cmp.unwrap_or(Equal)` on these scores is total
integer comparison; module comment.) -/
def resultCmp (a b : SearchResult) : Ordering :=
  (cmpInt b.score a.score).then
    ((cmpBool b.entry.is_common a.entry.is_common).then
      ((cmpNat (minFormLen a.entry) (minFormLen b.entry)).then
        (strCmp (sortKeyStr a.entry) (sortKeyStr b.entry))))

/-- "Sorts no later than": the non-strict relation induced by the
comparator; a stable sort by `resultCmp` is exactly a stable sort by this
relation. -/
def rankLe (a b : SearchResult) : Prop := resultCmp a b ≠ Ordering.gt

instance : DecidableRel rankLe := fun a b =>
  if h : resultCmp a b = Ordering.gt then isFalse fun hn => hn h else isTrue h

/-- The stable sort of `search_dictionary` (module comment). -/
def sortResults (rs : List SearchResult) : List SearchResult :=
  List.insertionSort rankLe rs

/-- Candidate evaluation of `search_dictionary`: indexed candidates when
the index produced any, else the fallback scan. -/
def searchResultsRaw (dict : List WordEntry) (query : Str) :
    List SearchResult :=
  let query_type := detect_query_type query
  let indexed := find_indexed_entries (build_english_index dict)
    (build_kanji_index dict) (build_kana_index dict) query query_type
  if indexed.isEmpty then fallbackScan dict query query_type
  else indexed.filterMap fun idx =>
    evaluate_entry (dict.getD idx dfltEntry) query query_type

/-- The fully scored-and-sorted result list of `search_dictionary`, before
the final `take(50).map(entry)`. -/
def searchScored (dict : List WordEntry) (query : Str) : List SearchResult :=
  sortResults (searchResultsRaw dict query)

/-- `search.rs::search_dictionary`, over an abstract dictionary (the
entry list stands for `get_word_entry(0..WORD_COUNT)`), with the three
global indices in their built state. -/
def search_dictionary (dict : List WordEntry) (query : Str) : List WordEntry :=
  if (trimStr query).isEmpty then []
  else ((searchScored dict query).take 50).map SearchResult.entry

/-- C8: every candidate set is strictly ascending (hence ordered and
duplicate-free) and holds at most 1000 ids; every search returns at most
50 entries. -/
theorem c8_candidate_and_result_caps (eng kj kn : IndexMap) (query : Str)
    (query_type : QueryType) (dict : List WordEntry) (q2 : Str) :
    (find_indexed_entries eng kj kn query query_type).Pairwise (· ≤ ·) ∧
    (find_indexed_entries eng kj kn query query_type).Nodup ∧
    (find_indexed_entries eng kj kn query query_type).length ≤ 1000 ∧
    (search_dictionary dict q2).length ≤ 50 := by
  have hstrict : (find_indexed_entries eng kj kn query query_type).Pairwise
      (· < ·) := by
    unfold find_indexed_entries
    exact List.Pairwise.sublist (List.take_sublist _ _)
      (dedupAdj_strict _ (List.sorted_insertionSort (· ≤ ·) _))
  refine ⟨hstrict.imp Nat.le_of_lt, hstrict.imp Nat.ne_of_lt,
    List.length_take_le _ _, ?_⟩
  unfold search_dictionary
  split
  · exact Nat.le_of_lt (by norm_num)
  · rw [List.length_map]
    exact le_trans (List.length_take_le _ _) (by norm_num)

theorem then_eq_eq (o1 o2 : Ordering) :
    o1.then o2 = Ordering.eq ↔ o1 = Ordering.eq ∧ o2 = Ordering.eq := by
  cases o1 <;> cases o2 <;> simp [Ordering.then]

theorem then_eq_lt (o1 o2 : Ordering) :
    o1.then o2 = Ordering.lt ↔
      o1 = Ordering.lt ∨ (o1 = Ordering.eq ∧ o2 = Ordering.lt) := by
  cases o1 <;> cases o2 <;> simp [Ordering.then]

theorem then_ne_gt (o1 o2 : Ordering) :
    o1.then o2 ≠ Ordering.gt ↔
      o1 = Ordering.lt ∨ (o1 = Ordering.eq ∧ o2 ≠ Ordering.gt) := by
  cases o1 <;> cases o2 <;> simp [Ordering.then]

theorem then_swap (o1 o2 : Ordering) :
    (o1.then o2).swap = o1.swap.then o2.swap := by
  cases o1 <;> cases o2 <;> rfl

theorem cmpNat_eq (x y : Nat) : cmpNat x y = Ordering.eq ↔ x = y := by
  unfold cmpNat
  split_ifs with h1 h2 <;> simp <;> omega

theorem cmpNat_lt_iff (x y : Nat) : cmpNat x y = Ordering.lt ↔ x < y := by
  unfold cmpNat
  split_ifs with h1 h2 <;> simp <;> omega

theorem cmpNat_swap (x y : Nat) : cmpNat x y = (cmpNat y x).swap := by
  unfold cmpNat
  split_ifs <;> first | rfl | omega

theorem cmpNat_lt_trans (x y z : Nat) :
    cmpNat x y = Ordering.lt → cmpNat y z = Ordering.lt →
      cmpNat x z = Ordering.lt := by
  rw [cmpNat_lt_iff, cmpNat_lt_iff, cmpNat_lt_iff]
  omega

theorem cmpInt_eq (x y : Int) : cmpInt x y = Ordering.eq ↔ x = y := by
  unfold cmpInt
  split_ifs with h1 h2 <;> simp <;> omega

theorem cmpInt_lt_iff (x y : Int) : cmpInt x y = Ordering.lt ↔ x < y := by
  unfold cmpInt
  split_ifs with h1 h2 <;> simp <;> omega

theorem cmpInt_swap (x y : Int) : cmpInt x y = (cmpInt y x).swap := by
  unfold cmpInt
  split_ifs <;> first | rfl | omega

theorem cmpInt_lt_trans (x y z : Int) :
    cmpInt x y = Ordering.lt → cmpInt y z = Ordering.lt →
      cmpInt x z = Ordering.lt := by
  rw [cmpInt_lt_iff, cmpInt_lt_iff, cmpInt_lt_iff]
  omega

theorem cmpBool_eq : ∀ x y : Bool, cmpBool x y = Ordering.eq ↔ x = y := by
  decide

theorem cmpBool_lt_iff : ∀ x y : Bool,
    cmpBool x y = Ordering.lt ↔ x = false ∧ y = true := by
  decide

theorem cmpBool_swap : ∀ x y : Bool, cmpBool x y = (cmpBool y x).swap := by
  decide

theorem cmpBool_lt_trans : ∀ x y z : Bool,
    cmpBool x y = Ordering.lt → cmpBool y z = Ordering.lt →
      cmpBool x z = Ordering.lt := by
  decide

theorem cmpChar_eq (x y : Char) : cmpChar x y = Ordering.eq ↔ x = y := by
  rw [cmpChar, cmpNat_eq]
  exact ⟨fun h => Char.ext (UInt32.ext h), fun h => h ▸ rfl⟩

theorem cmpChar_swap (x y : Char) : cmpChar x y = (cmpChar y x).swap :=
  cmpNat_swap _ _

theorem cmpChar_lt_trans (x y z : Char) :
    cmpChar x y = Ordering.lt → cmpChar y z = Ordering.lt →
      cmpChar x z = Ordering.lt :=
  cmpNat_lt_trans _ _ _

theorem strCmp_eq : ∀ a b : Str, strCmp a b = Ordering.eq ↔ a = b
  | [], [] => by simp [strCmp]
  | [], _ :: _ => by simp [strCmp]
  | _ :: _, [] => by simp [strCmp]
  | a :: as, b :: bs => by
    simp only [strCmp, then_eq_eq, cmpChar_eq, strCmp_eq as bs,
      List.cons.injEq]

theorem strCmp_swap : ∀ a b : Str, strCmp a b = (strCmp b a).swap
  | [], [] => rfl
  | [], _ :: _ => rfl
  | _ :: _, [] => rfl
  | a :: as, b :: bs => by
    simp only [strCmp]
    rw [cmpChar_swap a b, strCmp_swap as bs, ← then_swap]

theorem strCmp_lt_trans : ∀ a b c : Str,
    strCmp a b = Ordering.lt → strCmp b c = Ordering.lt →
      strCmp a c = Ordering.lt
  | [], [], _, h1, _ => by simp [strCmp] at h1
  | [], _ :: _, [], _, h2 => by simp [strCmp] at h2
  | [], _ :: _, _ :: _, _, _ => by simp [strCmp]
  | _ :: _, [], _, h1, _ => by simp [strCmp] at h1
  | _ :: _, _ :: _, [], _, h2 => by simp [strCmp] at h2
  | x :: xs, y :: ys, z :: zs, h1, h2 => by
    simp only [strCmp, then_eq_lt, cmpChar_eq] at h1 h2 ⊢
    rcases h1 with h1 | ⟨h1e, h1r⟩ <;> rcases h2 with h2 | ⟨h2e, h2r⟩
    · exact Or.inl (cmpChar_lt_trans x y z h1 h2)
    · left; rw [← h2e]; exact h1
    · left; rw [h1e]; exact h2
    · exact Or.inr ⟨h1e.trans h2e, strCmp_lt_trans xs ys zs h1r h2r⟩

theorem strCmp_ne_gt_trans (x y z : Str) :
    strCmp x y ≠ Ordering.gt → strCmp y z ≠ Ordering.gt →
      strCmp x z ≠ Ordering.gt := by
  intro h1 h2
  cases hxy : strCmp x y with
  | gt => exact absurd hxy h1
  | lt =>
    cases hyz : strCmp y z with
    | gt => exact absurd hyz h2
    | lt => rw [strCmp_lt_trans x y z hxy hyz]; simp
    | eq =>
      have hyz2 : y = z := (strCmp_eq y z).mp hyz
      rw [← hyz2, hxy]
      simp
  | eq =>
    have hxy2 : x = y := (strCmp_eq x y).mp hxy
    rw [hxy2]
    exact h2

theorem resultCmp_swap (a b : SearchResult) :
    resultCmp a b = (resultCmp b a).swap := by
  unfold resultCmp
  rw [cmpInt_swap, cmpBool_swap, cmpNat_swap,
    strCmp_swap (sortKeyStr a.entry) (sortKeyStr b.entry),
    ← then_swap, ← then_swap, ← then_swap]

theorem rankLe_total (a b : SearchResult) : rankLe a b ∨ rankLe b a := by
  unfold rankLe
  by_cases h : resultCmp a b = Ordering.gt
  · right
    rw [resultCmp_swap a b] at h
    cases hba : resultCmp b a <;> rw [hba] at h <;> simp [Ordering.swap] at h ⊢
  · left; exact h

theorem rankLe_trans (a b c : SearchResult) :
    rankLe a b → rankLe b c → rankLe a c := by
  unfold rankLe resultCmp
  intro h1 h2
  simp only [then_ne_gt, cmpInt_eq, cmpBool_eq, cmpNat_eq] at h1 h2 ⊢
  rcases h1 with h1 | ⟨hs1, h1⟩
  · rcases h2 with h2 | ⟨hs2, h2⟩
    · exact Or.inl (cmpInt_lt_trans _ _ _ h2 h1)
    · left; rw [hs2]; exact h1
  · rcases h2 with h2 | ⟨hs2, h2⟩
    · left; rw [← hs1]; exact h2
    · right
      refine ⟨hs2.trans hs1, ?_⟩
      rcases h1 with h1 | ⟨hc1, h1⟩
      · rcases h2 with h2 | ⟨hc2, h2⟩
        · exact Or.inl (cmpBool_lt_trans _ _ _ h2 h1)
        · left; rw [hc2]; exact h1
      · rcases h2 with h2 | ⟨hc2, h2⟩
        · left; rw [← hc1]; exact h2
        · right
          refine ⟨hc2.trans hc1, ?_⟩
          rcases h1 with h1 | ⟨hm1, h1⟩
          · rcases h2 with h2 | ⟨hm2, h2⟩
            · exact Or.inl (cmpNat_lt_trans _ _ _ h1 h2)
            · left; rw [← hm2]; exact h1
          · rcases h2 with h2 | ⟨hm2, h2⟩
            · left; rw [hm1]; exact h2
            · exact Or.inr ⟨hm1.trans hm2, strCmp_ne_gt_trans _ _ _ h1 h2⟩

/-- The ordering claim C2 states, in its own vocabulary: an earlier result
either scores strictly higher, or ties on score and is common while the
later is not, or ties on commonness too and has a smaller minimum form
byte length, or ties on that too and its first-form key is lexicographically
no greater. -/
def rankedBefore (a b : SearchResult) : Prop :=
  b.score < a.score ∨
    (a.score = b.score ∧
      ((a.entry.is_common = true ∧ b.entry.is_common = false) ∨
        (a.entry.is_common = b.entry.is_common ∧
          (minFormLen a.entry < minFormLen b.entry ∨
            (minFormLen a.entry = minFormLen b.entry ∧
              strCmp (sortKeyStr a.entry) (sortKeyStr b.entry) ≠ Ordering.gt)))))

theorem rankLe_implies_rankedBefore (a b : SearchResult) (h : rankLe a b) :
    rankedBefore a b := by
  unfold rankLe resultCmp at h
  simp only [then_ne_gt, cmpInt_eq, cmpBool_eq, cmpNat_eq] at h
  unfold rankedBefore
  rcases h with hs | ⟨hs, h⟩
  · exact Or.inl ((cmpInt_lt_iff _ _).mp hs)
  · right
    refine ⟨hs.symm, ?_⟩
    rcases h with hc | ⟨hc, h⟩
    · have hbc := (cmpBool_lt_iff _ _).mp hc
      exact Or.inl ⟨hbc.2, hbc.1⟩
    · right
      refine ⟨hc.symm, ?_⟩
      rcases h with hm | ⟨hm, h⟩
      · exact Or.inl ((cmpNat_lt_iff _ _).mp hm)
      · exact Or.inr ⟨hm, h⟩

/-- C2: for every dictionary snapshot and query, the scored result list is
sorted so that any earlier element relates to any later element by score
descending, then common-before-non-common, then minimum form byte length
ascending, then first-form lexicographic order; the ranked output of
`search_dictionary` is the 50-prefix of this list mapped to its entries
(so in particular, on a score tie a common entry never appears after a
non-common one, whatever the storage order). -/
theorem c2_rank_determinism (dict : List WordEntry) (query : Str) :
    (searchScored dict query).Pairwise rankedBefore ∧
    search_dictionary dict query =
      (if (trimStr query).isEmpty then []
       else ((searchScored dict query).take 50).map SearchResult.entry) := by
  constructor
  · have hs : (searchScored dict query).Pairwise rankLe := by
      haveI : IsTotal SearchResult rankLe := ⟨rankLe_total⟩
      haveI : IsTrans SearchResult rankLe := ⟨rankLe_trans⟩
      exact List.sorted_insertionSort rankLe _
    exact hs.imp fun h => rankLe_implies_rankedBefore _ _ h
  · rfl

/-- The packed dictionary blob consumed by `dictionary.rs` (the static
arrays `JMDICT_STRINGS`, `JMDICT_STRING_OFFSETS`, `JMDICT_ENTRIES`,
`JMDICT_ENTRY_OFFSETS` and the per-category counts). Bytes are `Nat`s. -/
structure Blob where
  strings : List Nat
  stringOffsets : List Nat
  entries : List Nat
  entryOffsets : List Nat
  kanjiCount : Nat
  kanaCount : Nat
  englishCount : Nat
  posCount : Nat
  wordCount : Nat
deriving Repr

/-- `dictionary.rs::read_string`: bytes from `offset` up to the first null
(or the end of the pool).  Total by construction: the bounded `while` loop
cannot fault. -/
def read_string (b : Blob) (off : Nat) : List Nat :=
  (b.strings.drop off).takeWhile fun x => x ≠ 0

/-- `u32::from_le_bytes([data[p], data[p+1], data[p+2], data[p+3]])` with
each byte access bounds-checked (`none` = the Rust panic). -/
def readU32 (data : List Nat) (p : Nat) : Option Nat := do
  let b0 ← data[p]?
  let b1 ← data[p + 1]?
  let b2 ← data[p + 2]?
  let b3 ← data[p + 3]?
  pure (b0 + 256 * b1 + 65536 * b2 + 16777216 * b3)

/-- `read_string(JMDICT_STRING_OFFSETS[idx])` with the offset-table access
bounds-checked. -/
def getString (b : Blob) (idx : Nat) : Option (List Nat) :=
  (b.stringOffsets[idx]?).map (read_string b)

/-- One `for _ in 0..count` loop of `get_word_entry`: read `count` 4-byte
indices starting at `p`, resolve each through the offset table; returns the
strings and the position after the loop. -/
def readStrings (b : Blob) (data : List Nat) : Nat → Nat → Option (List (List Nat) × Nat)
  | p, 0 => some ([], p)
  | p, c + 1 => do
    let idx ← readU32 data p
    let s ← getString b idx
    let (rest, pend) ← readStrings b data (p + 4) c
    pure (s :: rest, pend)

/-- A decoded entry as produced by `dictionary.rs::get_word_entry`
(strings kept as byte runs; the claim is about bounds and emptiness, not
UTF-8 decoding). -/
structure DecodedEntry where
  id : List Nat
  kanji : List (List Nat)
  kana : List (List Nat)
  english : List (List Nat)
  pos : List (List Nat)
  is_common : Bool
deriving DecidableEq, Repr

/-- `dictionary.rs::get_word_entry`, with every Rust panic site (slice and
table indexing) modelled as `none`: the entry-offset lookup, the
`&JMDICT_ENTRIES[offset..]` slice, the fixed header bytes (id index, the
four counts, the common flag), the four index-list loops, and the id slot
lookup, in the source's read order. -/
def get_word_entry (b : Blob) (index : Nat) : Option DecodedEntry :=
  match b.entryOffsets[index]? with
  | none => none
  | some off =>
    if b.entries.length < off then none
    else
      match readU32 (b.entries.drop off) 0, (b.entries.drop off)[4]?,
          (b.entries.drop off)[5]?, (b.entries.drop off)[6]?,
          (b.entries.drop off)[7]?, (b.entries.drop off)[8]? with
      | some idIdx, some kanjiCount, some kanaCount, some englishCount,
          some posCount, some isCommon =>
        match readStrings b (b.entries.drop off) 9 kanjiCount with
        | none => none
        | some (kanji, p1) =>
          match readStrings b (b.entries.drop off) p1 kanaCount with
          | none => none
          | some (kana, p2) =>
            match readStrings b (b.entries.drop off) p2 englishCount with
            | none => none
            | some (english, p3) =>
              match readStrings b (b.entries.drop off) p3 posCount with
              | none => none
              | some (posV, _) =>
                match getString b (b.kanjiCount + b.kanaCount +
                    b.englishCount + b.posCount + idIdx) with
                | none => none
                | some idStr =>
                  some ⟨idStr, kanji, kana, english, posV, isCommon != 0⟩
      | _, _, _, _, _, _ => none

/-- One embedded 4-byte index at `p` resolves to a valid offset-table slot.
-/
def u32Okb (data : List Nat) (p bound : Nat) : Bool :=
  match readU32 data p with
  | some v => v < bound
  | none => false

/-- One offset-table slot points at a non-empty, null-terminated run inside
the string pool. -/
def slotOkb (b : Blob) (off : Nat) : Bool :=
  match b.strings[off]? with
  | some hd => hd != 0 && (b.strings.drop off).contains 0
  | none => false

/-- One entry record is fully in bounds and all its embedded indices (the
four category lists and the id) resolve to valid offset-table slots. -/
def entryOkb (b : Blob) (i : Nat) : Bool :=
  match b.entryOffsets[i]? with
  | none => false
  | some off =>
    match (b.entries.drop off)[4]?, (b.entries.drop off)[5]?,
        (b.entries.drop off)[6]?, (b.entries.drop off)[7]? with
    | some c1, some c2, some c3, some c4 =>
      decide (off + 9 + 4 * (c1 + c2 + c3 + c4) ≤ b.entries.length) &&
      ((List.range (c1 + c2 + c3 + c4)).all fun j =>
        u32Okb (b.entries.drop off) (9 + 4 * j) b.stringOffsets.length) &&
      (match readU32 (b.entries.drop off) 0 with
       | some idv => decide (b.kanjiCount + b.kanaCount + b.englishCount +
           b.posCount + idv < b.stringOffsets.length)
       | none => false)
    | _, _, _, _ => false

/-- The blob consistency invariant of the spec (section 3): the entry
count matches the offset table, every offset-table slot resolves to a
non-empty null-terminated run in the pool, and every entry record is
self-consistent with indices resolving to valid slots. -/
def blobOkb (b : Blob) : Bool :=
  (b.entryOffsets.length == b.wordCount) &&
  b.stringOffsets.all (slotOkb b) &&
  ((List.range b.wordCount).all fun i => entryOkb b i)

theorem read_string_ne_nil (b : Blob) (off : Nat) (h : slotOkb b off = true) :
    read_string b off ≠ [] := by
  unfold slotOkb at h
  cases hh : b.strings[off]? with
  | none => rw [hh] at h; exact absurd h (by simp)
  | some hd =>
    rw [hh] at h
    simp only [Bool.and_eq_true, bne_iff_ne] at h
    unfold read_string
    cases hd2 : b.strings.drop off with
    | nil =>
      have hcontra := List.head?_drop b.strings off
      rw [hd2, hh] at hcontra
      exact absurd hcontra (by simp)
    | cons x t =>
      have hx : x = hd := by
        have hhd := List.head?_drop b.strings off
        rw [hd2, hh] at hhd
        simpa using hhd
      subst hx
      simp [List.takeWhile_cons, h.1]

theorem getString_ok (b : Blob) (idx : Nat)
    (hidx : idx < b.stringOffsets.length)
    (hslots : ∀ off ∈ b.stringOffsets, slotOkb b off = true) :
    ∃ s, getString b idx = some s ∧ s ≠ [] := by
  unfold getString
  rw [List.getElem?_eq_getElem hidx]
  exact ⟨_, rfl,
    read_string_ne_nil b _ (hslots _ (List.getElem_mem hidx))⟩

theorem readStrings_ok (b : Blob) (data : List Nat)
    (hslots : ∀ off ∈ b.stringOffsets, slotOkb b off = true) :
    ∀ (c j0 : Nat),
      (∀ j, j0 ≤ j → j < j0 + c →
        u32Okb data (9 + 4 * j) b.stringOffsets.length = true) →
      ∃ out, readStrings b data (9 + 4 * j0) c = some (out, 9 + 4 * (j0 + c)) ∧
        ∀ s ∈ out, s ≠ []
  | 0, j0, _ => ⟨[], by simp [readStrings], by simp⟩
  | c + 1, j0, hall => by
    have hj0 := hall j0 (Nat.le_refl _) (by omega)
    unfold u32Okb at hj0
    cases hu : readU32 data (9 + 4 * j0) with
    | none => rw [hu] at hj0; exact absurd hj0 (by simp)
    | some v =>
      rw [hu] at hj0
      have hv : v < b.stringOffsets.length := by simpa using hj0
      obtain ⟨s, hgs, hs⟩ := getString_ok b v hv hslots
      obtain ⟨out, hout, hne⟩ := readStrings_ok b data hslots c (j0 + 1)
        (fun j hj1 hj2 => hall j (by omega) (by omega))
      refine ⟨s :: out, ?_, ?_⟩
      · have hpos : 9 + 4 * j0 + 4 = 9 + 4 * (j0 + 1) := by ring
        have hpos2 : 9 + 4 * (j0 + 1 + c) = 9 + 4 * (j0 + (c + 1)) := by ring
        rw [hpos2] at hout
        simp only [readStrings, hu, hgs, hpos, hout, Option.some_bind]
        simp [hgs]
      · intro t ht
        rcases List.mem_cons.mp ht with h | h
        · exact h ▸ hs
        · exact hne t h

theorem entryOkb_elim (b : Blob) (i : Nat) (h : entryOkb b i = true) :
    ∃ off c1 c2 c3 c4 idv,
      b.entryOffsets[i]? = some off ∧
      (b.entries.drop off)[4]? = some c1 ∧
      (b.entries.drop off)[5]? = some c2 ∧
      (b.entries.drop off)[6]? = some c3 ∧
      (b.entries.drop off)[7]? = some c4 ∧
      off + 9 + 4 * (c1 + c2 + c3 + c4) ≤ b.entries.length ∧
      (∀ j, j < c1 + c2 + c3 + c4 →
        u32Okb (b.entries.drop off) (9 + 4 * j) b.stringOffsets.length = true) ∧
      readU32 (b.entries.drop off) 0 = some idv ∧
      b.kanjiCount + b.kanaCount + b.englishCount + b.posCount + idv <
        b.stringOffsets.length := by
  unfold entryOkb at h
  split at h
  · exact absurd h (by simp)
  · next off hoff =>
    split at h
    · next c1 c2 c3 c4 h4 h5 h6 h7 =>
      simp only [Bool.and_eq_true, decide_eq_true_eq, List.all_eq_true] at h
      obtain ⟨⟨hlen, hall⟩, hid⟩ := h
      cases hrid : readU32 (b.entries.drop off) 0 with
      | none => rw [hrid] at hid; exact absurd hid (by simp)
      | some idv =>
        rw [hrid] at hid
        exact ⟨off, c1, c2, c3, c4, idv, hoff, h4, h5, h6, h7, hlen,
          fun j hj => hall j (List.mem_range.mpr hj), hrid, by simpa using hid⟩
    · next h4 => exact absurd h (by simp)

/-- C9: under the blob consistency invariant, decoding any in-range entry
never faults (every slice and table access is in bounds) and the four
decoded string sequences contain only non-empty strings. -/
theorem c9_decode_no_fault (b : Blob) (hb : blobOkb b = true) :
    ∀ i, i < b.wordCount → ∃ e, get_word_entry b i = some e ∧
      (∀ s ∈ e.kanji, s ≠ []) ∧ (∀ s ∈ e.kana, s ≠ []) ∧
      (∀ s ∈ e.english, s ≠ []) ∧ (∀ s ∈ e.pos, s ≠ []) := by
  intro i hi
  unfold blobOkb at hb
  simp only [Bool.and_eq_true, beq_iff_eq, List.all_eq_true] at hb
  obtain ⟨⟨hcnt, hslots⟩, hentries⟩ := hb
  obtain ⟨off, c1, c2, c3, c4, idv, hoff, h4, h5, h6, h7, hlen, hall, hrid, hidlt⟩ :=
    entryOkb_elim b i (hentries i (List.mem_range.mpr hi))
  have hguard : ¬ (b.entries.length < off) := by omega
  have h8lt : 8 < (b.entries.drop off).length := by
    rw [List.length_drop]
    omega
  obtain ⟨b8, h8⟩ : ∃ x, (b.entries.drop off)[8]? = some x :=
    ⟨_, List.getElem?_eq_getElem h8lt⟩
  obtain ⟨out1, ho1, hne1⟩ := readStrings_ok b (b.entries.drop off) hslots c1 0
    (fun j hj1 hj2 => hall j (by omega))
  obtain ⟨out2, ho2, hne2⟩ := readStrings_ok b (b.entries.drop off) hslots c2 c1
    (fun j hj1 hj2 => hall j (by omega))
  obtain ⟨out3, ho3, hne3⟩ := readStrings_ok b (b.entries.drop off) hslots c3
    (c1 + c2) (fun j hj1 hj2 => hall j (by omega))
  obtain ⟨out4, ho4, hne4⟩ := readStrings_ok b (b.entries.drop off) hslots c4
    (c1 + c2 + c3) (fun j hj1 hj2 => hall j (by omega))
  rw [show 9 + 4 * (0 : Nat) = 9 from by norm_num,
    show (0 : Nat) + c1 = c1 from by omega] at ho1
  obtain ⟨ids, hgid, hneid⟩ := getString_ok b
    (b.kanjiCount + b.kanaCount + b.englishCount + b.posCount + idv) hidlt hslots
  refine ⟨⟨ids, out1, out2, out3, out4, b8 != 0⟩, ?_, hne1, hne2, hne3, hne4⟩
  simp only [get_word_entry, hoff, if_neg hguard, hrid, h4, h5, h6, h7, h8,
    ho1, ho2, ho3, ho4, hgid]

/-- A concrete valid blob: five pool strings "k", "n", "g", "p", "i" (one
per category plus the id), one entry with one form of each category,
flagged common. -/
def c9Blob : Blob :=
  { strings := [107, 0, 110, 0, 103, 0, 112, 0, 105, 0]
    stringOffsets := [0, 2, 4, 6, 8]
    entries := [0, 0, 0, 0,
                1, 1, 1, 1,
                1,
                0, 0, 0, 0,
                1, 0, 0, 0,
                2, 0, 0, 0,
                3, 0, 0, 0]
    entryOffsets := [0]
    kanjiCount := 1
    kanaCount := 1
    englishCount := 1
    posCount := 1
    wordCount := 1 }

theorem c9_witness :
    0 < c9Blob.wordCount ∧
      ∃ e, get_word_entry c9Blob 0 = some e ∧
        (∀ s ∈ e.kanji, s ≠ []) ∧ (∀ s ∈ e.kana, s ≠ []) ∧
        (∀ s ∈ e.english, s ≠ []) ∧ (∀ s ∈ e.pos, s ≠ []) :=
  ⟨by decide, c9_decode_no_fault c9Blob (by decide) 0 (by decide)⟩
